import Mathlib

/-!
# Verification of the tmuxer project-discovery and session-orchestration core

This file is a shallow embedding of the Go program `tmuxer` (files `main.go`
and its revised variant), faithful to the source.  Strings are modelled at
the character-list level (`String.data`); Go's byte-level operations agree
with character-level operations on valid UTF-8 input, since UTF-8 byte-wise
lexicographic order and substring matching coincide with the code-point
versions.

Modelled external effects:
* the filesystem walk `doublestar.GlobWalk` is an oracle
  `walk : String → String → List String × Bool` returning, for a base
  directory and a pattern, the list of relative matches delivered to the
  callback (in order) and whether the walk ended in an error;
* `os.UserHomeDir` / `os.Getwd` are `Option String` parameters
  (`none` = the call fails);
* the tmux binary is an oracle: a scripted list of `list-sessions`
  responses plus success flags for the `new-session` and
  `attach-session`/`switch-client` commands.

Pure Go library functions (`path.Clean`, `path.Base`, `path.Dir`,
`path.Join`, `filepath.Rel`, `doublestar.SplitPattern`,
`strings.Contains`, `strings.Split`, `strings.ToLower`, the glob-detection
regexp) are implemented from their sources.
-/

/-! ## Character-level string utilities (Go `strings` package operations) -/

/-- Split a character list on a separator character.
Mirrors Go `strings.Split(s, sep)` for a one-character separator:
`splitOnChar '/' "".data = [[]]`, i.e. `Split("", "/") = [""]`. -/
def splitOnChar (sep : Char) : List Char → List (List Char)
  | [] => [[]]
  | c :: rest =>
    if c = sep then [] :: splitOnChar sep rest
    else
      match splitOnChar sep rest with
      | [] => [[c]]
      | g :: gs => (c :: g) :: gs

/-- Whether `sub` occurs as a contiguous sublist of the second argument.
Mirrors Go `strings.Contains` (byte search; equivalent at char level on
valid UTF-8). -/
def charsContain (sub : List Char) : List Char → Bool
  | [] => sub.isEmpty
  | c :: rest => List.isPrefixOf sub (c :: rest) || charsContain sub rest

/-- Go `strings.Contains(s, sub)`. -/
def strContains (s sub : String) : Bool := charsContain sub.data s.data

/-- Go `strings.HasPrefix(s, pre)`. -/
def strStartsWith (s pre : String) : Bool := List.isPrefixOf pre.data s.data

/-- Go `s[n:]` for a character count `n` (byte slicing in Go; identical for
ASCII prefixes, which is how the program uses it: after `"~"` and
`"$HOME"`). -/
def strDrop (s : String) (n : Nat) : String := String.mk (s.data.drop n)

/-- Go `strings.ToLower` (ASCII-level model: `Char.toLower` lowers only
ASCII letters; the project names compared by the program are file names). -/
def strToLower (s : String) : String := String.mk (s.data.map Char.toLower)

/-- Code-point lexicographic `≤` on character lists.  Agrees with Go's
byte-wise string comparison `<=` on valid UTF-8 strings. -/
def charListLe : List Char → List Char → Bool
  | [], _ => true
  | _ :: _, [] => false
  | a :: as, b :: bs =>
    if a.toNat = b.toNat then charListLe as bs
    else decide (a.toNat < b.toNat)

/-! ## Go `path` package: `Clean`, `Base`, `Dir`, `Join` -/

/-- The component-processing loop of Go `path.Clean`: `acc` is the output
(reversed); empty and `"."` components are dropped; `".."` pops a previous
component, except that it is kept at the front of a relative path and
dropped at the root of a rooted path. -/
def cleanComps (rooted : Bool) : List (List Char) → List (List Char) → List (List Char)
  | acc, [] => acc
  | acc, c :: rest =>
    if c = [] ∨ c = ['.'] then cleanComps rooted acc rest
    else if c = ['.', '.'] then
      match acc with
      | [] => cleanComps rooted (if rooted then [] else [c]) rest
      | x :: xs =>
        if x = ['.', '.'] then cleanComps rooted (c :: acc) rest
        else cleanComps rooted xs rest
    else cleanComps rooted (c :: acc) rest

/-- Join components with `'/'` separators (no leading/trailing separator). -/
def joinSlash : List (List Char) → List Char
  | [] => []
  | [g] => g
  | g :: gs => g ++ '/' :: joinSlash gs

/-- Go `path.Clean` on a character list. -/
def cleanChars (cs : List Char) : List Char :=
  if cs = [] then ['.']
  else
    let rooted := cs.head? = some '/'
    let out := (cleanComps rooted [] (splitOnChar '/' cs)).reverse
    let joined := joinSlash out
    if rooted then '/' :: joined
    else if joined = [] then ['.'] else joined

/-- Go `path.Clean` (also `filepath.Clean` on Unix). -/
def clean (p : String) : String := String.mk (cleanChars p.data)

/-- Remove trailing `'/'` characters. -/
def dropTrailingSlashes (cs : List Char) : List Char :=
  (cs.reverse.dropWhile (fun c => c == '/')).reverse

/-- The characters after the last `'/'`. -/
def lastComponent (cs : List Char) : List Char :=
  (cs.reverse.takeWhile (fun c => c != '/')).reverse

/-- Go `path.Base`: empty path gives `"."`; trailing slashes are dropped;
an all-slash path gives `"/"`; otherwise the last element. -/
def pathBase (p : String) : String :=
  if p = "" then "."
  else
    let cs := dropTrailingSlashes p.data
    if cs = [] then "/"
    else String.mk (lastComponent cs)

/-- Go `path.Dir`: `Clean` of everything up to and including the final
slash (`Clean("") = "."` when there is no slash). -/
def pathDir (p : String) : String :=
  clean (String.mk ((p.data.reverse.dropWhile (fun c => c != '/')).reverse))

/-- Go `path.Join(a, b)` (also `filepath.Join` on Unix): all-empty gives
`""`; empty elements are skipped; otherwise the elements are joined with
`'/'` and the result is `Clean`ed. -/
def pathJoin (a b : String) : String :=
  if a = "" ∧ b = "" then ""
  else if a = "" then clean b
  else clean (String.mk (a.data ++ '/' :: b.data))

/-! ## `filepath.Rel` (Unix: no volume names) -/

/-- Strip the longest common prefix of two component lists (the
first-differing-element loop of `filepath.Rel`). -/
def dropCommonPrefix : List String → List String → List String × List String
  | [], ts => ([], ts)
  | bs, [] => (bs, [])
  | b :: bs, t :: ts =>
    if b = t then dropCommonPrefix bs ts else (b :: bs, t :: ts)

/-- Go `filepath.Rel(basepath, targpath)` on Unix, `none` on error:
both paths are `Clean`ed; equal paths give `"."`; mixing rooted and
relative paths is an error; a `Clean`ed base of `"."` contributes no
components; after stripping the common component prefix, a remaining
leading `".."` base component is an error; otherwise the result is one
`".."` per remaining base component followed by the remaining target
components. -/
def filepathRel (basepath targpath : String) : Option String :=
  let base := clean basepath
  let targ := clean targpath
  if targ = base then some "."
  else
    let bSlash := strStartsWith base "/"
    let tSlash := strStartsWith targ "/"
    if bSlash ≠ tSlash then none
    else
      let base1 := if base = "." then "" else if bSlash then strDrop base 1 else base
      let targ1 := if tSlash then strDrop targ 1 else targ
      let bcs := if base1 = "" then [] else (splitOnChar '/' base1.data).map String.mk
      let tcs := if targ1 = "" then [] else (splitOnChar '/' targ1.data).map String.mk
      let pr := dropCommonPrefix bcs tcs
      match pr.1 with
      | ".." :: _ => none
      | brem =>
        some (String.mk (joinSlash ((brem.map (fun _ => "..") ++ pr.2).map String.data)))

/-! ## `doublestar.SplitPattern` and the glob-detection regexp -/

/-- The scanning loop of `doublestar.SplitPattern`: record the index of
each `'/'`, skip the character after a backslash, stop at the first
unescaped meta character (`*?[{`); returns the index of the last slash
seen before stopping. -/
def splitIdxAux : List Char → Nat → Option Nat → Option Nat
  | [], _, best => best
  | c :: rest, i, best =>
    if c = '\\' then
      match rest with
      | [] => best
      | _ :: rest2 => splitIdxAux rest2 (i + 2) best
    else if c = '/' then splitIdxAux rest (i + 1) (some i)
    else if c = '*' ∨ c = '?' ∨ c = '[' ∨ c = '{' then best
    else splitIdxAux rest (i + 1) best

/-- Go `doublestar.SplitPattern(p)`: split at the last slash before any
unescaped meta character; no such slash gives base `"."`; a slash at
index 0 gives base `"/"`. -/
def splitPattern (p : String) : String × String :=
  match splitIdxAux p.data 0 none with
  | none => (".", p)
  | some 0 => ("/", String.mk (p.data.drop 1))
  | some i => (String.mk (p.data.take i), String.mk (p.data.drop (i + 1)))

/-- Whether the regexp alternative `\[.*\]` matches somewhere in the list:
a `'['` with a `']'` after it and no newline in between. -/
def hasBracketPair : List Char → Bool
  | [] => false
  | c :: rest =>
    (if c = '[' then (rest.takeWhile (fun d => d != '\n')).contains ']' else false)
      || hasBracketPair rest

/-- Whether the regexp alternative `\{[^}]*\}` matches somewhere in the
list: a `'{'` with a `'}'` after it. -/
def hasBracePair : List Char → Bool
  | [] => false
  | c :: rest =>
    (if c = '{' then rest.contains '}' else false) || hasBracePair rest

/-- Whether the Go regexp `(\*|\*\*|\?|\[.*\]|\{[^}]*\})` finds a match in
`s` (`len(regex.FindStringIndex(s)) > 0` in the source). -/
def isGlobSegment (s : String) : Bool :=
  s.data.contains '*' || s.data.contains '?'
    || hasBracketPair s.data || hasBracePair s.data

/-! ## Data model -/

/-- The `Project` struct. -/
structure Project where
  Name : String
  FullPath : String
  HomePath : String
deriving Repr, DecidableEq

/-- The `Config` struct (the `base` key of the YAML file, merged with the
`--base` flag values). -/
structure Config where
  ProjectBase : List String
deriving Repr, DecidableEq

/-! ## The project resolver (`findProjectDirectories`, revised variant)

The revised resolver (the variant with the degenerate-marker name fix and
the final sort) is modelled here; the older variant differs only as noted
in the theorems' comments.  The Go map `ret` is modelled as an association
list with insert-or-replace semantics; the arbitrary Go map iteration
order is immaterial to every property proved below (the proofs go through
permutation-invariant statements). -/

/-- Insert-or-replace for the association list modelling the Go map
`ret[key] = project`. -/
def mapInsert (m : List (String × Project)) (k : String) (v : Project) :
    List (String × Project) :=
  match m with
  | [] => [(k, v)]
  | (k', v') :: rest => if k' = k then (k, v) :: rest else (k', v') :: mapInsert rest k v

/-- The name derivation of the revised resolver's walk callback:
`name := p; if patternUsed { if !strings.Contains(p, "/") { name =
path.Base(base) } else { name = path.Dir(p) } }`. -/
def deriveName (patternUsed : Bool) (base p : String) : String :=
  if patternUsed then
    if !(strContains p "/") then pathBase base else pathDir p
  else p

/-- One walk-callback invocation: build the `Project` for match `p`, or
`none` when `filepath.Rel` fails (the callback then returns the error and
the walk of this base stops). -/
def matchProject (patternUsed : Bool) (base homedir p : String) : Option Project :=
  let name := deriveName patternUsed base p
  let fullpath := pathJoin base name
  match filepathRel homedir fullpath with
  | none => none
  | some rel => some { Name := name, FullPath := fullpath, HomePath := rel }

/-- Run the walk callback over the delivered matches of one base pattern,
inserting each built project into the map keyed by its full path; a
`filepath.Rel` failure aborts the remaining matches of this base. -/
def processMatches (base homedir : String) (patternUsed : Bool) :
    List (String × Project) → List String → List (String × Project)
  | ret, [] => ret
  | ret, p :: rest =>
    match matchProject patternUsed base homedir p with
    | none => ret
    | some proj =>
      processMatches base homedir patternUsed (mapInsert ret proj.FullPath proj) rest

/-- Handle one entry of `cfg.ProjectBase`: split it with
`doublestar.SplitPattern`, classify the last pattern segment with the glob
regexp, and walk.  The error result of `doublestar.GlobWalk` (the `Bool`
of the oracle) is discarded, exactly as in the source. -/
def processBasePattern (homedir : String) (walk : String → String → List String × Bool)
    (ret : List (String × Project)) (basePattern : String) : List (String × Project) :=
  let bp := splitPattern basePattern
  let patternUsed := isGlobSegment (pathBase bp.2)
  processMatches bp.1 homedir patternUsed ret (walk bp.1 bp.2).1

/-- The descending case-insensitive name order used by the final
`sort.Slice` call: `a` may precede `b` iff
`strings.ToLower(b.Name) <= strings.ToLower(a.Name)`. -/
def nameGe (a b : Project) : Prop :=
  charListLe (strToLower b.Name).data (strToLower a.Name).data = true

instance : DecidableRel nameGe := fun a b => by
  unfold nameGe; infer_instance

/-- The `sort.Slice(res, func(i, j) { return ToLower(res[i].Name) >
ToLower(res[j].Name) })` call.  `sort.Slice` guarantees exactly that the
result is some permutation of the input ordered by the comparator (it is
not stable); `insertionSort` is such a sort. -/
def sortProjects (l : List Project) : List Project := List.insertionSort nameGe l

/-- The resolver `findProjectDirectories` (revised variant): fold the walk over every
base pattern into the dedup map, collect the values, sort them.  The
function always returns a `nil` error (second component), mirroring
`return res, nil` — the per-base `GlobWalk` errors are dropped. -/
def findProjectDirectories (homedir : String)
    (walk : String → String → List String × Bool) (cfg : Config) :
    List Project × Option String :=
  let ret := cfg.ProjectBase.foldl (processBasePattern homedir walk) []
  (sortProjects (ret.map (fun kv => kv.2)), none)

/-! ## `normalizePath` and the base-path phase of `main` -/

/-- The two home-token rewrites at the head of `normalizePath`; the error
of `os.UserHomeDir` is discarded in the source (`homeDir, _ := ...`), so
an undeterminable home directory contributes the empty string. -/
def expandHome (userHome : Option String) (p : String) : String :=
  let p1 := if strStartsWith p "~" then pathJoin (userHome.getD "") (strDrop p 1) else p
  if strStartsWith p1 "$HOME" then pathJoin (userHome.getD "") (strDrop p1 5) else p1

/-- The function `normalizePath`: home-token expansion followed by `filepath.Abs`
(`Clean` for absolute paths, `Join(Getwd(), path)` otherwise, failing only
when `os.Getwd` fails, modelled by `cwd = none`). -/
def normalizePath (userHome cwd : Option String) (p : String) : Option String :=
  let q := expandHome userHome p
  if strStartsWith q "/" then some (clean q)
  else
    match cwd with
    | some wd => some (pathJoin wd q)
    | none => none

/-- The method `Config.NormalizePaths`: normalize every base entry in order, failing
fast on the first error. -/
def normalizeAll (userHome cwd : Option String) : List String → Option (List String)
  | [] => some []
  | p :: rest =>
    match normalizePath userHome cwd p with
    | none => none
    | some q =>
      match normalizeAll userHome cwd rest with
      | none => none
      | some qs => some (q :: qs)

/-- Outcome of the part of `main` between config loading and the walk:
either the process exits with a code before reaching
`findProjectDirectories`, or it reaches the walk with the normalized base
list.  `walked` is the only constructor whose continuation invokes the
filesystem walk. -/
inductive MainOutcome where
  | exited : Nat → MainOutcome
  | walked : List String → MainOutcome
deriving Repr, DecidableEq

/-- The base-path phase of `main`: `mergeFlagsWithConfig` (flag values
appended after file values), the empty-check with `os.Exit(1)`, then
`config.NormalizePaths()` with `os.Exit(1)` on error; a surviving config
proceeds to `findProjectDirectories`. -/
def mainBasePhase (userHome cwd : Option String) (fileBases flagBases : List String) :
    MainOutcome :=
  let merged := if flagBases.length > 0 then fileBases ++ flagBases else fileBases
  if merged.length = 0 then MainOutcome.exited 1
  else
    match normalizeAll userHome cwd merged with
    | none => MainOutcome.exited 1
    | some normed => MainOutcome.walked normed

/-! ## The session orchestrator (`startOrAttachToTmux`, revised variant)

The revised variant executes the tmux commands (`runTmuxCommand`); the
older variant merely printed the attach/switch command text.  The external
tmux server is a script: one `(combined output, error?)` pair per
`list-sessions` query, plus success flags for the spawned commands.  The
self-recursion of the source consumes one scripted response per
invocation; an exhausted script (impossible with a real server, which
always answers) is reported as `noResponse`. -/

/-- The tmux commands the orchestrator can issue. -/
inductive TmuxCmd where
  | listSessions : TmuxCmd
  | switchClient : String → TmuxCmd
  | attachSession : String → TmuxCmd
  | newSession : String → String → TmuxCmd
deriving Repr, DecidableEq

/-- Whether a command is a session-creation command. -/
def isCreateCmd : TmuxCmd → Bool
  | TmuxCmd.newSession _ _ => true
  | _ => false

/-- Final state of one orchestrator invocation. -/
inductive OrchResult where
  | ok : OrchResult
  | cmdFailed : OrchResult
  | listFailed : OrchResult
  | noResponse : OrchResult
deriving Repr, DecidableEq

/-- The session-membership test: some line of the `list-sessions` output
contains the project name as a substring. -/
def sessionMatches (output name : String) : Bool :=
  (splitOnChar '\n' output.data).any (fun line => charsContain name.data line)

/-- The orchestrator `startOrAttachToTmux` (revised variant).  `tmuxVar` is the value of
the `TMUX` environment variable (`inTmux := tmuxVar != ""`).  Returns the
list of tmux commands issued (including the `list-sessions` queries) and
the final result. -/
def startOrAttachToTmux (name fullPath tmuxVar : String)
    (newSessionOk attachOk : Bool) :
    List (String × Bool) → List TmuxCmd × OrchResult
  | [] => ([], OrchResult.noResponse)
  | (out, errFlag) :: rest =>
    if errFlag && !(strContains out "no server running") then
      ([TmuxCmd.listSessions], OrchResult.listFailed)
    else
      let inTmux := tmuxVar ≠ ""
      let sessionExists := sessionMatches out name
      if sessionExists ∧ inTmux then
        ([TmuxCmd.listSessions, TmuxCmd.switchClient name],
         if attachOk then OrchResult.ok else OrchResult.cmdFailed)
      else if sessionExists then
        ([TmuxCmd.listSessions, TmuxCmd.attachSession name],
         if attachOk then OrchResult.ok else OrchResult.cmdFailed)
      else if newSessionOk then
        let r := startOrAttachToTmux name fullPath tmuxVar newSessionOk attachOk rest
        (TmuxCmd.listSessions :: TmuxCmd.newSession name fullPath :: r.1, r.2)
      else
        ([TmuxCmd.listSessions, TmuxCmd.newSession name fullPath], OrchResult.cmdFailed)

/-- The invariant of the dedup map: keys are distinct and every stored
project is keyed by its own full path. -/
def goodMap (m : List (String × Project)) : Prop :=
  (m.map Prod.fst).Nodup ∧ ∀ kv ∈ m, kv.2.FullPath = kv.1

/-! ### Sanity checks for the path algebra -/

example : clean "/a//b/./../c" = "/a/c" := by decide
example : clean "a/.." = "." := by decide
example : clean "/.." = "/" := by decide
example : clean "../../a" = "../../a" := by decide
example : clean "" = "." := by decide
example : pathBase "/a/b" = "b" := by decide
example : pathBase "/" = "/" := by decide
example : pathBase "" = "." := by decide
example : pathBase "a/b//" = "b" := by decide
example : pathDir "project-a/.git" = "project-a" := by decide
example : pathDir "x" = "." := by decide
example : pathDir "/a" = "/" := by decide
example : pathJoin "/home/u/code" "project-a" = "/home/u/code/project-a" := by decide
example : pathJoin "" "/x" = "/x" := by decide
example : pathJoin "a" "" = "a" := by decide
example : filepathRel "/home/u" "/home/u/code/project-a" = some "code/project-a" := by decide
example : filepathRel "/home/u" "/b2/proj" = some "../../b2/proj" := by decide
example : filepathRel "/a" "b" = none := by decide
example : filepathRel "/a" "/a" = some "." := by decide
example : splitPattern "/home/u/code/**/\x7b.git\x7d" = ("/home/u/code", "**/\x7b.git\x7d") := by decide
example : splitPattern "rel" = (".", "rel") := by decide
example : splitPattern "/*" = ("/", "*") := by decide
example : splitPattern "/b2/proj" = ("/b2", "proj") := by decide
example : isGlobSegment "\x7b.git\x7d" = true := by decide
example : isGlobSegment "*" = true := by decide
example : isGlobSegment "proj" = false := by decide
example : isGlobSegment "[ab]" = true := by decide
example : strContains "project-a/.git" "/" = true := by decide
example : strContains ".git" "/" = false := by decide

/-! ### Sanity checks for the resolver and orchestrator -/

example :
    findProjectDirectories "/home/u"
      (fun _ _ => (["project-a/.git"], false)) ⟨["/home/u/code/**/\x7b.git\x7d"]⟩
    = ([⟨"project-a", "/home/u/code/project-a", "code/project-a"⟩], none) := by decide

-- Degenerate marker case: the name is `path.Base(base)`; note that the
-- source then computes `fullpath = path.Join(base, name)`, repeating the
-- last base component.
example :
    findProjectDirectories "/home/u"
      (fun _ _ => ([".git"], false)) ⟨["/home/u/code/**/\x7b.git\x7d"]⟩
    = ([⟨"code", "/home/u/code/code", "code/code"⟩], none) := by decide

example :
    findProjectDirectories "/home/u"
      (fun _ _ => (["proj"], false)) ⟨["/b2/proj"]⟩
    = ([⟨"proj", "/b2/proj", "../../b2/proj"⟩], none) := by decide

example : normalizePath (some "/home/u") (some "/w") "~/code" = some "/home/u/code" := by decide
example : normalizePath none (some "/w") "~/x" = some "/x" := by decide
example : normalizePath (some "/home/u") none "rel" = none := by decide
example : normalizePath (some "/home/u") (some "/w") "$HOME/a" = some "/home/u/a" := by decide

example :
    startOrAttachToTmux "proj" "/b/proj" "" true true
      [("no server running", true), ("proj: 1 windows", false)]
    = ([TmuxCmd.listSessions, TmuxCmd.newSession "proj" "/b/proj",
        TmuxCmd.listSessions, TmuxCmd.attachSession "proj"], OrchResult.ok) := by decide

example :
    startOrAttachToTmux "proj" "/b/proj" "" true true [("proj: 1 windows", false)]
    = ([TmuxCmd.listSessions, TmuxCmd.attachSession "proj"], OrchResult.ok) := by decide

example :
    startOrAttachToTmux "proj" "/b/proj" "tmux-1000" true true [("proj: 1 windows", false)]
    = ([TmuxCmd.listSessions, TmuxCmd.switchClient "proj"], OrchResult.ok) := by decide

/-! ## Order lemmas for the sort comparator -/

theorem charListLe_total : ∀ x y : List Char, charListLe x y = true ∨ charListLe y x = true := by
  intro x
  induction x with
  | nil => intro y; left; rfl
  | cons a as ih =>
    intro y
    cases y with
    | nil => right; rfl
    | cons b bs =>
      by_cases h : a.toNat = b.toNat
      · rcases ih bs with h1 | h1
        · left; simp [charListLe, h, h1]
        · right; simp [charListLe, h.symm, h1]
      · rcases Nat.lt_or_ge a.toNat b.toNat with h1 | h1
        · left; simp [charListLe, h, h1]
        · have h2 : b.toNat < a.toNat := Nat.lt_of_le_of_ne h1 (fun e => h e.symm)
          have hne : ¬b.toNat = a.toNat := fun e => h e.symm
          right; simp [charListLe, hne, h2]

theorem charListLe_trans :
    ∀ x y z : List Char, charListLe x y = true → charListLe y z = true →
      charListLe x z = true := by
  intro x
  induction x with
  | nil => intro y z _ _; rfl
  | cons a as ih =>
    intro y z h1 h2
    cases y with
    | nil => simp [charListLe] at h1
    | cons b bs =>
      cases z with
      | nil => simp [charListLe] at h2
      | cons c cs =>
        by_cases hab : a.toNat = b.toNat
        · by_cases hbc : b.toNat = c.toNat
          · simp [charListLe, hab, hbc] at h1 h2
            simp [charListLe, hab.trans hbc]
            exact ih bs cs h1 h2
          · simp [charListLe, hab, hbc] at h1 h2
            have hac : a.toNat < c.toNat := hab ▸ h2
            simp [charListLe, Nat.ne_of_lt hac, hac]
        · simp [charListLe, hab] at h1
          by_cases hbc : b.toNat = c.toNat
          · have hac : a.toNat < c.toNat := hbc ▸ h1
            simp [charListLe, Nat.ne_of_lt hac, hac]
          · simp [charListLe, hbc] at h2
            have hac : a.toNat < c.toNat := Nat.lt_trans h1 h2
            simp [charListLe, Nat.ne_of_lt hac, hac]

instance : IsTotal Project nameGe :=
  ⟨fun a b => charListLe_total (strToLower b.Name).data (strToLower a.Name).data⟩

instance : IsTrans Project nameGe :=
  ⟨fun _ _ _ h1 h2 => charListLe_trans _ _ _ h2 h1⟩

theorem sortProjects_perm (l : List Project) : (sortProjects l).Perm l :=
  List.perm_insertionSort nameGe l

theorem sortProjects_sorted (l : List Project) : List.Sorted nameGe (sortProjects l) :=
  List.sorted_insertionSort nameGe l

/-! ## Lemmas about the dedup map -/

theorem mapInsert_keys (m : List (String × Project)) (k : String) (v : Project) :
    (mapInsert m k v).map Prod.fst =
      if k ∈ m.map Prod.fst then m.map Prod.fst else m.map Prod.fst ++ [k] := by
  induction m with
  | nil => simp [mapInsert]
  | cons kv rest ih =>
    obtain ⟨k', v'⟩ := kv
    by_cases h : k' = k
    · subst h; simp [mapInsert]
    · by_cases h2 : k ∈ rest.map Prod.fst
      · simp [mapInsert, h, ih, h2, Ne.symm h]
      · simp [mapInsert, h, ih, h2, Ne.symm h]

theorem mapInsert_key_mem (m : List (String × Project)) (k : String) (v : Project) :
    k ∈ (mapInsert m k v).map Prod.fst := by
  rw [mapInsert_keys]
  by_cases h : k ∈ m.map Prod.fst <;> simp [h]

theorem mapInsert_key_mono {m : List (String × Project)} {k' : String}
    (h : k' ∈ m.map Prod.fst) (k : String) (v : Project) :
    k' ∈ (mapInsert m k v).map Prod.fst := by
  rw [mapInsert_keys]
  by_cases h2 : k ∈ m.map Prod.fst <;> simp [h2, h]

theorem mapInsert_mem {k : String} {v : Project} {kv : String × Project} :
    ∀ {m : List (String × Project)}, kv ∈ mapInsert m k v → kv = (k, v) ∨ kv ∈ m := by
  intro m
  induction m with
  | nil => intro h; simpa [mapInsert] using h
  | cons kv' rest ih =>
    intro h
    obtain ⟨k', v'⟩ := kv'
    by_cases hk : k' = k
    · subst hk
      simp only [mapInsert, if_pos, List.mem_cons] at h
      rcases h with h | h
      · exact Or.inl h
      · exact Or.inr (List.mem_cons_of_mem _ h)
    · simp only [mapInsert, if_neg hk, List.mem_cons] at h
      rcases h with h | h
      · exact Or.inr (List.mem_cons.mpr (Or.inl h))
      · rcases ih h with h2 | h2
        · exact Or.inl h2
        · exact Or.inr (List.mem_cons_of_mem _ h2)

theorem mapInsert_good {m : List (String × Project)} {k : String} {v : Project}
    (hm : goodMap m) (hv : v.FullPath = k) : goodMap (mapInsert m k v) := by
  constructor
  · rw [mapInsert_keys]
    by_cases h : k ∈ m.map Prod.fst
    · simpa [h] using hm.1
    · simp only [if_neg h]
      have hperm : (m.map Prod.fst ++ [k]).Perm (k :: m.map Prod.fst) :=
        List.perm_append_comm
      rw [hperm.nodup_iff, List.nodup_cons]
      exact ⟨h, hm.1⟩
  · intro kv hkv
    rcases mapInsert_mem hkv with h | h
    · rw [h]; exact hv
    · exact hm.2 kv h

/-! ## Lemmas about the per-match project construction -/

theorem matchProject_eq {pu : Bool} {base homedir p : String} {proj : Project}
    (h : matchProject pu base homedir p = some proj) :
    proj.Name = deriveName pu base p ∧
      proj.FullPath = pathJoin base (deriveName pu base p) := by
  simp only [matchProject] at h
  cases hrel : filepathRel homedir (pathJoin base (deriveName pu base p)) with
  | none => rw [hrel] at h; exact absurd h (by simp)
  | some rel =>
    rw [hrel] at h
    simp only [Option.some.injEq] at h
    rw [← h]
    exact ⟨rfl, rfl⟩

/-! ## Lemmas about `processMatches` and the base-pattern fold -/

theorem processMatches_good {base homedir : String} {pu : Bool} :
    ∀ (ms : List String) (ret : List (String × Project)), goodMap ret →
      goodMap (processMatches base homedir pu ret ms) := by
  intro ms
  induction ms with
  | nil => intro ret h; exact h
  | cons p rest ih =>
    intro ret h
    simp only [processMatches]
    cases hm : matchProject pu base homedir p with
    | none => exact h
    | some proj => exact ih _ (mapInsert_good h rfl)

theorem processMatches_key_mono {base homedir : String} {pu : Bool} :
    ∀ (ms : List String) (ret : List (String × Project)) (k : String),
      k ∈ ret.map Prod.fst →
      k ∈ (processMatches base homedir pu ret ms).map Prod.fst := by
  intro ms
  induction ms with
  | nil => intro ret k h; exact h
  | cons p rest ih =>
    intro ret k h
    simp only [processMatches]
    cases hm : matchProject pu base homedir p with
    | none => exact h
    | some proj => exact ih _ _ (mapInsert_key_mono h _ _)

theorem processMatches_key_of_match {base homedir : String} {pu : Bool} :
    ∀ (ms : List String) (ret : List (String × Project)),
      (∀ q ∈ ms, (matchProject pu base homedir q).isSome = true) →
      ∀ p ∈ ms,
        pathJoin base (deriveName pu base p) ∈
          (processMatches base homedir pu ret ms).map Prod.fst := by
  intro ms
  induction ms with
  | nil => intro ret _ p hp; exact absurd hp (List.not_mem_nil p)
  | cons q rest ih =>
    intro ret hall p hp
    have hq : (matchProject pu base homedir q).isSome = true :=
      hall q (List.mem_cons_self q rest)
    cases hm : matchProject pu base homedir q with
    | none => rw [hm] at hq; exact absurd hq (by simp)
    | some proj =>
      simp only [processMatches, hm]
      rcases List.mem_cons.mp hp with h | h
      · subst h
        have := (matchProject_eq hm).2
        rw [← this]
        exact processMatches_key_mono rest _ _ (this ▸ mapInsert_key_mem ret _ proj)
      · exact ih _ (fun r hr => hall r (List.mem_cons_of_mem _ hr)) p h

theorem processMatches_mem {base homedir : String} {pu : Bool} :
    ∀ (ms : List String) (ret : List (String × Project))
      (kv : String × Project), kv ∈ processMatches base homedir pu ret ms →
      kv ∈ ret ∨ ∃ p ∈ ms, matchProject pu base homedir p = some kv.2 := by
  intro ms
  induction ms with
  | nil => intro ret kv h; exact Or.inl h
  | cons q rest ih =>
    intro ret kv h
    simp only [processMatches] at h
    cases hm : matchProject pu base homedir q with
    | none => rw [hm] at h; exact Or.inl h
    | some proj =>
      rw [hm] at h
      rcases ih _ _ h with h2 | h2
      · rcases mapInsert_mem h2 with h3 | h3
        · right
          refine ⟨q, List.mem_cons_self q rest, ?_⟩
          rw [hm, h3]
        · exact Or.inl h3
      · rcases h2 with ⟨p, hp, hpm⟩
        exact Or.inr ⟨p, List.mem_cons_of_mem _ hp, hpm⟩

theorem foldl_good (homedir : String) (walk : String → String → List String × Bool) :
    ∀ (l : List String) (acc : List (String × Project)), goodMap acc →
      goodMap (l.foldl (processBasePattern homedir walk) acc) := by
  intro l
  induction l with
  | nil => intro acc h; exact h
  | cons bp rest ih =>
    intro acc h
    simp only [List.foldl_cons]
    refine ih _ ?_
    simp only [processBasePattern]
    exact processMatches_good _ _ h

theorem foldl_key_mono (homedir : String) (walk : String → String → List String × Bool) :
    ∀ (l : List String) (acc : List (String × Project)) (k : String),
      k ∈ acc.map Prod.fst →
      k ∈ (l.foldl (processBasePattern homedir walk) acc).map Prod.fst := by
  intro l
  induction l with
  | nil => intro acc k h; exact h
  | cons bp rest ih =>
    intro acc k h
    simp only [List.foldl_cons]
    refine ih _ _ ?_
    simp only [processBasePattern]
    exact processMatches_key_mono _ _ _ h

theorem foldl_key_present (homedir : String) (walk : String → String → List String × Bool) :
    ∀ (l : List String) (acc : List (String × Project)) (bp : String), bp ∈ l →
      (∀ q ∈ (walk (splitPattern bp).1 (splitPattern bp).2).1,
        (matchProject (isGlobSegment (pathBase (splitPattern bp).2))
          (splitPattern bp).1 homedir q).isSome = true) →
      ∀ p ∈ (walk (splitPattern bp).1 (splitPattern bp).2).1,
        pathJoin (splitPattern bp).1
          (deriveName (isGlobSegment (pathBase (splitPattern bp).2)) (splitPattern bp).1 p)
          ∈ (l.foldl (processBasePattern homedir walk) acc).map Prod.fst := by
  intro l
  induction l with
  | nil => intro acc bp hbp; exact absurd hbp (List.not_mem_nil bp)
  | cons bp' rest ih =>
    intro acc bp hbp hall p hp
    simp only [List.foldl_cons]
    rcases List.mem_cons.mp hbp with h | h
    · subst h
      refine foldl_key_mono homedir walk rest _ _ ?_
      simp only [processBasePattern]
      exact processMatches_key_of_match _ _ hall p hp
    · exact ih _ bp h hall p hp

theorem values_fullpaths :
    ∀ m : List (String × Project), (∀ kv ∈ m, kv.2.FullPath = kv.1) →
      (m.map (fun kv => kv.2)).map Project.FullPath = m.map Prod.fst := by
  intro m
  induction m with
  | nil => intro _; rfl
  | cons kv rest ih =>
    intro h
    simp only [List.map_cons, List.cons.injEq]
    exact ⟨h kv (List.mem_cons_self kv rest),
      ih (fun kv2 h2 => h kv2 (List.mem_cons_of_mem _ h2))⟩

/-! ## Claim theorems -/

/-- Claim C1 (dedup invariant).  The project list returned by
`findProjectDirectories` contains at most one `Project` per distinct full
path — the full paths of the result are pairwise distinct — and every full
path actually produced by some base pattern (with `filepath.Rel`
succeeding on that base's matches) appears exactly once, no matter how
many base patterns or matches resolved to it. -/
theorem findProjectDirectories_dedup_by_fullpath (homedir : String)
    (walk : String → String → List String × Bool) (cfg : Config) :
    (((findProjectDirectories homedir walk cfg).1).map Project.FullPath).Nodup ∧
    (∀ bp ∈ cfg.ProjectBase,
      (∀ q ∈ (walk (splitPattern bp).1 (splitPattern bp).2).1,
        (matchProject (isGlobSegment (pathBase (splitPattern bp).2))
          (splitPattern bp).1 homedir q).isSome = true) →
      ∀ p ∈ (walk (splitPattern bp).1 (splitPattern bp).2).1,
        (((findProjectDirectories homedir walk cfg).1).map Project.FullPath).count
          (pathJoin (splitPattern bp).1
            (deriveName (isGlobSegment (pathBase (splitPattern bp).2))
              (splitPattern bp).1 p)) = 1) := by
  have hgood : goodMap (cfg.ProjectBase.foldl (processBasePattern homedir walk) []) :=
    foldl_good homedir walk cfg.ProjectBase [] ⟨List.nodup_nil, by simp⟩
  have hkeys := values_fullpaths _ hgood.2
  have hperm :
      (((findProjectDirectories homedir walk cfg).1).map Project.FullPath).Perm
        ((cfg.ProjectBase.foldl (processBasePattern homedir walk) []).map Prod.fst) := by
    simp only [findProjectDirectories]
    rw [← hkeys]
    exact (sortProjects_perm _).map Project.FullPath
  constructor
  · exact hperm.nodup_iff.mpr hgood.1
  · intro bp hbp hall p hp
    have hk := foldl_key_present homedir walk cfg.ProjectBase [] bp hbp hall p hp
    rw [hperm.count_eq]
    exact List.count_eq_one_of_mem hgood.1 hk

/-- Witness for C1: a single marker-style base pattern with one match;
the produced full path occurs exactly once in the result. -/
theorem findProjectDirectories_dedup_by_fullpath_witness :
    (((findProjectDirectories "/home/u" (fun _ _ => (["project-a/.git"], false))
        ⟨["/home/u/code/**/\x7b.git\x7d"]⟩).1).map Project.FullPath).count
      "/home/u/code/project-a" = 1 :=
  (findProjectDirectories_dedup_by_fullpath "/home/u"
      (fun _ _ => (["project-a/.git"], false)) ⟨["/home/u/code/**/\x7b.git\x7d"]⟩).2
    "/home/u/code/**/\x7b.git\x7d" (by decide) (by decide) "project-a/.git" (by decide)

/-- Claim C10 (deterministic descending order).  The result of the revised
`findProjectDirectories` is always ordered by name, case-insensitively
descending: for any two results at positions `i < j`,
`ToLower(name_i) >= ToLower(name_j)` — and this holds for every input
order of the sort (so it is independent of the filesystem walk order and
of the Go map iteration order). -/
theorem findProjectDirectories_sorted_desc (homedir : String)
    (walk : String → String → List String × Bool) (cfg : Config) :
    List.Pairwise nameGe ((findProjectDirectories homedir walk cfg).1) ∧
    ∀ l : List Project, List.Pairwise nameGe (sortProjects l) := by
  constructor
  · simp only [findProjectDirectories]
    exact sortProjects_sorted _
  · exact fun l => sortProjects_sorted l

/-! ## Lemmas for the single-base-pattern resolution claims -/

theorem matchProject_isSome (pu : Bool) (base homedir p : String) :
    (matchProject pu base homedir p).isSome =
      (filepathRel homedir (pathJoin base (deriveName pu base p))).isSome := by
  simp only [matchProject]
  cases filepathRel homedir (pathJoin base (deriveName pu base p)) <;> rfl

theorem deriveName_literal (base p : String) : deriveName false base p = p := rfl

theorem deriveName_marker {base p : String} (h : strContains p "/" = true) :
    deriveName true base p = pathDir p := by
  simp [deriveName, h]

theorem deriveName_degenerate {base p : String} (h : strContains p "/" = false) :
    deriveName true base p = pathBase base := by
  simp [deriveName, h]

theorem value_with_fullpath {m : List (String × Project)}
    (hfp : ∀ kv ∈ m, kv.2.FullPath = kv.1) {k : String}
    (hk : k ∈ m.map Prod.fst) :
    ∃ proj ∈ m.map (fun kv => kv.2), proj.FullPath = k := by
  rw [← values_fullpaths m hfp] at hk
  rcases List.mem_map.mp hk with ⟨proj, hmem, heq⟩
  exact ⟨proj, hmem, heq⟩

theorem singleBase_values (homedir : String)
    (walk : String → String → List String × Bool) (bp : String) :
    ((⟨[bp]⟩ : Config).ProjectBase.foldl (processBasePattern homedir walk) []) =
      processMatches (splitPattern bp).1 homedir
        (isGlobSegment (pathBase (splitPattern bp).2)) []
        (walk (splitPattern bp).1 (splitPattern bp).2).1 := by
  simp [List.foldl, processBasePattern]

theorem singleBase_mem (homedir : String)
    (walk : String → String → List String × Bool) (bp : String) :
    ∀ proj ∈ (findProjectDirectories homedir walk ⟨[bp]⟩).1,
      ∃ p ∈ (walk (splitPattern bp).1 (splitPattern bp).2).1,
        matchProject (isGlobSegment (pathBase (splitPattern bp).2))
          (splitPattern bp).1 homedir p = some proj := by
  intro proj hmem
  simp only [findProjectDirectories] at hmem
  have h1 := (sortProjects_perm _).mem_iff.mp hmem
  rw [singleBase_values homedir walk bp] at h1
  rcases List.mem_map.mp h1 with ⟨kv, hkv, hkveq⟩
  rcases processMatches_mem _ _ _ hkv with h2 | ⟨p, hp, hpm⟩
  · exact absurd h2 (List.not_mem_nil kv)
  · exact ⟨p, hp, by rw [hpm, hkveq]⟩

theorem singleBase_present (homedir : String)
    (walk : String → String → List String × Bool) (bp : String)
    (hall : ∀ q ∈ (walk (splitPattern bp).1 (splitPattern bp).2).1,
      (matchProject (isGlobSegment (pathBase (splitPattern bp).2))
        (splitPattern bp).1 homedir q).isSome = true) :
    ∀ p ∈ (walk (splitPattern bp).1 (splitPattern bp).2).1,
      ∃ proj ∈ (findProjectDirectories homedir walk ⟨[bp]⟩).1,
        proj.FullPath = pathJoin (splitPattern bp).1
          (deriveName (isGlobSegment (pathBase (splitPattern bp).2))
            (splitPattern bp).1 p) := by
  intro p hp
  have hgood : goodMap ((⟨[bp]⟩ : Config).ProjectBase.foldl
      (processBasePattern homedir walk) []) :=
    foldl_good homedir walk _ [] ⟨List.nodup_nil, by simp⟩
  have hkey : pathJoin (splitPattern bp).1
      (deriveName (isGlobSegment (pathBase (splitPattern bp).2)) (splitPattern bp).1 p) ∈
      ((⟨[bp]⟩ : Config).ProjectBase.foldl (processBasePattern homedir walk) []).map
        Prod.fst := by
    rw [singleBase_values homedir walk bp]
    exact processMatches_key_of_match _ _ hall p hp
  rcases value_with_fullpath hgood.2 hkey with ⟨proj, hmem, heq⟩
  refine ⟨proj, ?_, heq⟩
  simp only [findProjectDirectories]
  exact (sortProjects_perm _).mem_iff.mpr hmem

/-- Claim C2 (marker-pattern parent naming).  For a base pattern whose last
segment is a glob (e.g. a `**/{.git}` suffix), every project produced from
a match `p` that has a parent directory component is named after the
parent: its name is `path.Dir(p)` and its full path is
`path.Join(base, path.Dir(p))` — never `.git` or the literal matched
path.  The injectivity hypothesis `hinj` reflects that a glob walk
delivers distinct cleaned relative paths whose parents join to distinct
full paths whenever the parents differ. -/
theorem marker_pattern_parent_naming (homedir : String)
    (walk : String → String → List String × Bool) (bp : String)
    (hglob : isGlobSegment (pathBase (splitPattern bp).2) = true)
    (hslash : ∀ p ∈ (walk (splitPattern bp).1 (splitPattern bp).2).1,
      strContains p "/" = true)
    (hrel : ∀ q ∈ (walk (splitPattern bp).1 (splitPattern bp).2).1,
      (filepathRel homedir (pathJoin (splitPattern bp).1 (pathDir q))).isSome = true)
    (hinj : ∀ p ∈ (walk (splitPattern bp).1 (splitPattern bp).2).1,
      ∀ q ∈ (walk (splitPattern bp).1 (splitPattern bp).2).1,
        pathJoin (splitPattern bp).1 (pathDir p) =
          pathJoin (splitPattern bp).1 (pathDir q) → pathDir p = pathDir q) :
    (∀ p ∈ (walk (splitPattern bp).1 (splitPattern bp).2).1,
      ∃ proj ∈ (findProjectDirectories homedir walk ⟨[bp]⟩).1,
        proj.Name = pathDir p ∧
          proj.FullPath = pathJoin (splitPattern bp).1 (pathDir p)) ∧
    (∀ proj ∈ (findProjectDirectories homedir walk ⟨[bp]⟩).1,
      ∃ p ∈ (walk (splitPattern bp).1 (splitPattern bp).2).1,
        proj.Name = pathDir p ∧
          proj.FullPath = pathJoin (splitPattern bp).1 (pathDir p)) := by
  have hall : ∀ q ∈ (walk (splitPattern bp).1 (splitPattern bp).2).1,
      (matchProject (isGlobSegment (pathBase (splitPattern bp).2))
        (splitPattern bp).1 homedir q).isSome = true := by
    intro q hq
    rw [matchProject_isSome, hglob, deriveName_marker (hslash q hq)]
    exact hrel q hq
  have hsrc : ∀ proj ∈ (findProjectDirectories homedir walk ⟨[bp]⟩).1,
      ∃ p ∈ (walk (splitPattern bp).1 (splitPattern bp).2).1,
        proj.Name = pathDir p ∧
          proj.FullPath = pathJoin (splitPattern bp).1 (pathDir p) := by
    intro proj hmem
    rcases singleBase_mem homedir walk bp proj hmem with ⟨p, hp, hpm⟩
    have he := matchProject_eq hpm
    rw [hglob, deriveName_marker (hslash p hp)] at he
    exact ⟨p, hp, he⟩
  refine ⟨?_, hsrc⟩
  intro p hp
  rcases singleBase_present homedir walk bp hall p hp with ⟨proj, hmem, heq⟩
  rw [hglob, deriveName_marker (hslash p hp)] at heq
  rcases hsrc proj hmem with ⟨q, hq, hqname, hqpath⟩
  have : pathDir q = pathDir p :=
    hinj q hq p hp (by rw [← hqpath, heq])
  exact ⟨proj, hmem, by rw [hqname, this], by rw [hqpath, this]⟩

/-- Witness for C2: the spec's own example — base `/home/u/code`, match
`project-a/.git` — yields name `project-a` and full path
`/home/u/code/project-a`. -/
theorem marker_pattern_parent_naming_witness :
    ∃ proj ∈ (findProjectDirectories "/home/u"
        (fun _ _ => (["project-a/.git"], false)) ⟨["/home/u/code/**/\x7b.git\x7d"]⟩).1,
      proj.Name = "project-a" ∧ proj.FullPath = "/home/u/code/project-a" :=
  (marker_pattern_parent_naming "/home/u" (fun _ _ => (["project-a/.git"], false))
      "/home/u/code/**/\x7b.git\x7d" (by decide) (by decide) (by decide) (by decide)).1
    "project-a/.git" (by decide)

/-- Claim C4 (literal suffix passthrough, revised resolver).  For a base
pattern whose final segment contains no glob metacharacters, each walk
match is itself the project: some result project has full path
`path.Join(base, p)` and name `p` for every match `p`, and conversely
every result project is exactly such a passthrough of some match.
(`hinj` as in C2: distinct matches resolve to distinct joined paths.) -/
theorem literal_suffix_passthrough (homedir : String)
    (walk : String → String → List String × Bool) (bp : String)
    (hglob : isGlobSegment (pathBase (splitPattern bp).2) = false)
    (hrel : ∀ q ∈ (walk (splitPattern bp).1 (splitPattern bp).2).1,
      (filepathRel homedir (pathJoin (splitPattern bp).1 q)).isSome = true)
    (hinj : ∀ p ∈ (walk (splitPattern bp).1 (splitPattern bp).2).1,
      ∀ q ∈ (walk (splitPattern bp).1 (splitPattern bp).2).1,
        pathJoin (splitPattern bp).1 p = pathJoin (splitPattern bp).1 q → p = q) :
    (∀ p ∈ (walk (splitPattern bp).1 (splitPattern bp).2).1,
      ∃ proj ∈ (findProjectDirectories homedir walk ⟨[bp]⟩).1,
        proj.Name = p ∧ proj.FullPath = pathJoin (splitPattern bp).1 p) ∧
    (∀ proj ∈ (findProjectDirectories homedir walk ⟨[bp]⟩).1,
      ∃ p ∈ (walk (splitPattern bp).1 (splitPattern bp).2).1,
        proj.Name = p ∧ proj.FullPath = pathJoin (splitPattern bp).1 p) := by
  have hall : ∀ q ∈ (walk (splitPattern bp).1 (splitPattern bp).2).1,
      (matchProject (isGlobSegment (pathBase (splitPattern bp).2))
        (splitPattern bp).1 homedir q).isSome = true := by
    intro q hq
    rw [matchProject_isSome, hglob, deriveName_literal]
    exact hrel q hq
  have hsrc : ∀ proj ∈ (findProjectDirectories homedir walk ⟨[bp]⟩).1,
      ∃ p ∈ (walk (splitPattern bp).1 (splitPattern bp).2).1,
        proj.Name = p ∧ proj.FullPath = pathJoin (splitPattern bp).1 p := by
    intro proj hmem
    rcases singleBase_mem homedir walk bp proj hmem with ⟨p, hp, hpm⟩
    have he := matchProject_eq hpm
    rw [hglob, deriveName_literal] at he
    exact ⟨p, hp, he⟩
  refine ⟨?_, hsrc⟩
  intro p hp
  rcases singleBase_present homedir walk bp hall p hp with ⟨proj, hmem, heq⟩
  rw [hglob, deriveName_literal] at heq
  rcases hsrc proj hmem with ⟨q, hq, hqname, hqpath⟩
  have : q = p := hinj q hq p hp (by rw [← hqpath, heq])
  exact ⟨proj, hmem, by rw [hqname, this], by rw [hqpath, this]⟩

/-- Witness for C4: literal pattern `/b2/proj`, match `proj`; the result
carries the match itself as name and `join` of base and match as path. -/
theorem literal_suffix_passthrough_witness :
    ∃ proj ∈ (findProjectDirectories "/home/u"
        (fun _ _ => (["proj"], false)) ⟨["/b2/proj"]⟩).1,
      proj.Name = "proj" ∧ proj.FullPath = "/b2/proj" :=
  (literal_suffix_passthrough "/home/u" (fun _ _ => (["proj"], false))
      "/b2/proj" (by decide) (by decide) (by decide)).1 "proj" (by decide)

/-! ## Lemmas for the degenerate marker case (C3) -/

theorem takeWhile_until_slash (u : List Char) :
    ∀ xs : List Char, (∀ c ∈ xs, c ≠ '/') →
      (xs ++ '/' :: u).takeWhile (fun c => c != '/') = xs := by
  intro xs
  induction xs with
  | nil => intro _; simp [List.takeWhile_cons]
  | cons c xs' ih =>
    intro h
    have hc : (c != '/') = true := by
      simpa using h c (List.mem_cons_self c xs')
    simp [List.takeWhile_cons, hc,
      ih (fun d hd => h d (List.mem_cons_of_mem _ hd))]

theorem joinSlash_concat_rev (l : List Char) :
    ∀ gs : List (List Char),
      ∃ t : List Char, (joinSlash (gs ++ [l])).reverse = l.reverse ++ t ∧
        (t = [] ∨ ∃ t2, t = '/' :: t2) := by
  intro gs
  induction gs with
  | nil => exact ⟨[], by simp [joinSlash], Or.inl rfl⟩
  | cons g gs' ih =>
    rcases ih with ⟨t, ht, hshape⟩
    have hne : gs' ++ [l] ≠ [] := by simp
    rcases List.exists_cons_of_ne_nil hne with ⟨x, xs, hx⟩
    have hjoin : joinSlash ((g :: gs') ++ [l]) = g ++ '/' :: joinSlash (gs' ++ [l]) := by
      rw [List.cons_append, hx]; rfl
    refine ⟨t ++ '/' :: g.reverse, ?_, ?_⟩
    · rw [hjoin]
      simp only [List.reverse_append, List.reverse_cons]
      rw [ht]
      simp [List.append_assoc]
    · rcases hshape with h | ⟨t2, h⟩
      · subst h; exact Or.inr ⟨g.reverse, rfl⟩
      · subst h; exact Or.inr ⟨t2 ++ '/' :: g.reverse, by simp⟩

theorem pathBase_abs (gs : List (List Char)) (l : List Char) (base : String)
    (hbase : base.data = '/' :: joinSlash (gs ++ [l]))
    (hl : l ≠ []) (hsl : ∀ c ∈ l, c ≠ '/') :
    pathBase base = String.mk l := by
  rcases joinSlash_concat_rev l gs with ⟨t, ht, hshape⟩
  have hrev : base.data.reverse = l.reverse ++ (t ++ ['/']) := by
    rw [hbase, List.reverse_cons, ht, List.append_assoc]
  have hu : ∃ u, base.data.reverse = l.reverse ++ '/' :: u := by
    rcases hshape with h | ⟨t2, h⟩
    · subst h
      refine ⟨[], ?_⟩
      rw [hrev]; simp
    · subst h
      refine ⟨t2 ++ ['/'], ?_⟩
      rw [hrev]; simp
  rcases hu with ⟨u, hu⟩
  have hne : base ≠ "" := by
    intro e
    have h2 : base.data = [] := by rw [e]
    rw [hbase] at h2
    exact absurd h2 (by simp)
  have hlrne : l.reverse ≠ [] := by
    intro e
    apply hl
    have := congrArg List.reverse e
    simpa using this
  rcases List.exists_cons_of_ne_nil hlrne with ⟨c, cs, hlrev⟩
  have hcmem : c ∈ l.reverse := by rw [hlrev]; exact List.mem_cons_self c cs
  have hcne : c ≠ '/' := hsl c (List.mem_reverse.mp hcmem)
  have hcc : (c == '/') = false := by simpa using hcne
  have hdrop : dropTrailingSlashes base.data = base.data := by
    unfold dropTrailingSlashes
    rw [hu, hlrev]
    simp only [List.cons_append, List.dropWhile_cons, hcc, Bool.false_eq_true, if_false]
    rw [show c :: (cs ++ '/' :: u) = l.reverse ++ '/' :: u from by rw [hlrev]; rfl]
    rw [← hu, List.reverse_reverse]
  have hlast : lastComponent base.data = l := by
    unfold lastComponent
    rw [hu]
    rw [takeWhile_until_slash u l.reverse (fun d hd => hsl d (List.mem_reverse.mp hd))]
    exact List.reverse_reverse l
  unfold pathBase
  rw [if_neg hne, hdrop]
  have hne2 : base.data ≠ [] := by rw [hbase]; simp
  rw [if_neg hne2, hlast]

/-- Claim C3 (degenerate marker case, revised resolver).  When a
glob-marker match sits directly under `baseDir` (the matched relative
path has no `/`), the derived project name is `path.Base(baseDir)`, and
for any cleaned absolute `baseDir` — the shape produced by
`normalizePath` + `doublestar.SplitPattern`, here given by its non-empty,
non-`.`, slash-free components `comps` — that name is never `""` and
never `"."`. -/
theorem degenerate_marker_name (comps : List (List Char)) (base p : String)
    (hcomps : ∀ c ∈ comps, c ≠ [] ∧ c ≠ ['.'] ∧ ∀ ch ∈ c, ch ≠ '/')
    (hbase : base.data = '/' :: joinSlash comps)
    (hp : strContains p "/" = false) :
    deriveName true base p = pathBase base ∧
      pathBase base ≠ "" ∧ pathBase base ≠ "." := by
  refine ⟨deriveName_degenerate hp, ?_⟩
  rcases List.eq_nil_or_concat comps with hc | ⟨gs, l, hc⟩
  · subst hc
    have hbase2 : base = "/" := by
      apply String.ext
      rw [hbase]; rfl
    rw [hbase2]
    exact ⟨by decide, by decide⟩
  · subst hc
    have hl := hcomps l (by simp)
    have hpb : pathBase base = String.mk l := by
      refine pathBase_abs gs l base ?_ hl.1 hl.2.2
      rw [hbase]; simp
    rw [hpb]
    constructor
    · intro e
      have : l = [] := by
        have h2 := congrArg String.data e
        simpa using h2
      exact hl.1 this
    · intro e
      have : l = ['.'] := by
        have h2 := congrArg String.data e
        simpa using h2
      exact hl.2.1 this

/-- Witness for C3: base `/home/u/code` (components `home`, `u`, `code`),
match `.git` directly under it: the derived name is `code`, not empty and
not `.`. -/
theorem degenerate_marker_name_witness :
    deriveName true "/home/u/code" ".git" = pathBase "/home/u/code" ∧
      pathBase "/home/u/code" ≠ "" ∧ pathBase "/home/u/code" ≠ "." :=
  degenerate_marker_name
    [['h', 'o', 'm', 'e'], ['u'], ['c', 'o', 'd', 'e']]
    "/home/u/code" ".git" (by decide) (by decide) (by decide)

/-! ## Orchestrator claims -/

/-- Claim C5 (session creation retry bound).  When the first `list-sessions`
query shows no session matching the project name and the `new-session`
command succeeds (after which a real tmux server lists the
freshly created session, so the second query matches), the orchestrator
issues exactly one create command followed by exactly one re-check and one
attach/switch, and terminates: the full command trace is
`[list-sessions, new-session, list-sessions, switch-or-attach]`, with
exactly one creation command. -/
theorem session_creation_retry_bound (name fullPath tmuxVar : String)
    (attachOk : Bool) (out1 out2 : String) (e1 e2 : Bool)
    (rest : List (String × Bool))
    (hg1 : (e1 && !(strContains out1 "no server running")) = false)
    (hm1 : sessionMatches out1 name = false)
    (hg2 : (e2 && !(strContains out2 "no server running")) = false)
    (hm2 : sessionMatches out2 name = true) :
    startOrAttachToTmux name fullPath tmuxVar true attachOk
        ((out1, e1) :: (out2, e2) :: rest) =
      ([TmuxCmd.listSessions, TmuxCmd.newSession name fullPath, TmuxCmd.listSessions,
        if tmuxVar ≠ "" then TmuxCmd.switchClient name else TmuxCmd.attachSession name],
       if attachOk then OrchResult.ok else OrchResult.cmdFailed) ∧
    ((startOrAttachToTmux name fullPath tmuxVar true attachOk
        ((out1, e1) :: (out2, e2) :: rest)).1.countP isCreateCmd) = 1 := by
  have hgb2 : ¬((e2 && !strContains out2 "no server running") = true) := by simp [hg2]
  have hgb1 : ¬((e1 && !strContains out1 "no server running") = true) := by simp [hg1]
  have key : startOrAttachToTmux name fullPath tmuxVar true attachOk ((out2, e2) :: rest) =
      ([TmuxCmd.listSessions,
        if tmuxVar ≠ "" then TmuxCmd.switchClient name else TmuxCmd.attachSession name],
       if attachOk then OrchResult.ok else OrchResult.cmdFailed) := by
    by_cases ht : tmuxVar = ""
    · subst ht
      simp only [startOrAttachToTmux]
      rw [if_neg hgb2, if_neg (fun hc : _ ∧ ¬("" : String) = "" => hc.2 rfl),
        if_pos hm2, if_neg (fun hc : ("" : String) ≠ "" => hc rfl)]
    · simp only [startOrAttachToTmux]
      rw [if_neg hgb2, if_pos ⟨hm2, ht⟩, if_pos ht]
  have h1 : startOrAttachToTmux name fullPath tmuxVar true attachOk
      ((out1, e1) :: (out2, e2) :: rest) =
      ([TmuxCmd.listSessions, TmuxCmd.newSession name fullPath, TmuxCmd.listSessions,
        if tmuxVar ≠ "" then TmuxCmd.switchClient name else TmuxCmd.attachSession name],
       if attachOk then OrchResult.ok else OrchResult.cmdFailed) := by
    have hm1n : ¬sessionMatches out1 name = true := by simp [hm1]
    rw [startOrAttachToTmux]
    rw [if_neg hgb1, if_neg (fun hc : _ ∧ _ => hm1n hc.1), if_neg hm1n,
      if_pos rfl, key]
  refine ⟨h1, ?_⟩
  rw [h1]
  by_cases ht : tmuxVar = "" <;>
    simp [ht, isCreateCmd, List.countP_cons]

/-- Witness for C5: no matching session, then the created session shows
up; one creation, then an attach; terminates with `ok`. -/
theorem session_creation_retry_bound_witness :
    startOrAttachToTmux "proj" "/b/proj" "" true true
        [("no server running", true), ("proj: 1 windows", false)] =
      ([TmuxCmd.listSessions, TmuxCmd.newSession "proj" "/b/proj",
        TmuxCmd.listSessions, TmuxCmd.attachSession "proj"], OrchResult.ok) ∧
    ((startOrAttachToTmux "proj" "/b/proj" "" true true
        [("no server running", true), ("proj: 1 windows", false)]).1.countP
      isCreateCmd) = 1 :=
  session_creation_retry_bound "proj" "/b/proj" "" true
    "no server running" "proj: 1 windows" true false []
    (by decide) (by decide) (by decide) (by decide)

/-- Claim C6 (session reuse).  When some line of the `list-sessions` output
contains the project name and the process runs outside any multiplexer
client (`TMUX` unset), the orchestrator issues an `attach-session`
targeting that name and issues no `new-session` command. -/
theorem session_reuse_attach (name fullPath : String) (newOk attachOk : Bool)
    (out : String) (e : Bool) (rest : List (String × Bool))
    (hg : (e && !(strContains out "no server running")) = false)
    (hm : sessionMatches out name = true) :
    (startOrAttachToTmux name fullPath "" newOk attachOk ((out, e) :: rest)).1 =
      [TmuxCmd.listSessions, TmuxCmd.attachSession name] ∧
    ∀ c ∈ (startOrAttachToTmux name fullPath "" newOk attachOk ((out, e) :: rest)).1,
      isCreateCmd c = false := by
  have hgb : ¬((e && !strContains out "no server running") = true) := by simp [hg]
  have h1 : (startOrAttachToTmux name fullPath "" newOk attachOk ((out, e) :: rest)).1 =
      [TmuxCmd.listSessions, TmuxCmd.attachSession name] := by
    simp only [startOrAttachToTmux]
    rw [if_neg hgb, if_neg (fun hc : _ ∧ ¬("" : String) = "" => hc.2 rfl), if_pos hm]
  refine ⟨h1, ?_⟩
  rw [h1]
  intro c hc
  rcases List.mem_cons.mp hc with h | h
  · subst h; rfl
  · rcases List.mem_cons.mp h with h2 | h2
    · subst h2; rfl
    · exact absurd h2 (List.not_mem_nil c)

/-- Witness for C6: an existing matching session outside tmux is
attached, never re-created. -/
theorem session_reuse_attach_witness :
    (startOrAttachToTmux "proj" "/b/proj" "" true true
        [("proj: 1 windows", false)]).1 =
      [TmuxCmd.listSessions, TmuxCmd.attachSession "proj"] ∧
    ∀ c ∈ (startOrAttachToTmux "proj" "/b/proj" "" true true
        [("proj: 1 windows", false)]).1, isCreateCmd c = false :=
  session_reuse_attach "proj" "/b/proj" true true "proj: 1 windows" false []
    (by decide) (by decide)

/-! ## `main` base-path phase and `normalizePath` claims -/

/-- Claim C7 (no-base-path fatal behavior).  When the merged base-pattern
list (config-file entries followed by CLI flag entries) is empty, `main`
exits with status 1 before normalization and before any filesystem walk:
the outcome is `exited 1`, never the `walked` outcome that invokes
`findProjectDirectories`. -/
theorem empty_base_list_exits (userHome cwd : Option String)
    (fileBases flagBases : List String)
    (h : fileBases ++ flagBases = []) :
    mainBasePhase userHome cwd fileBases flagBases = MainOutcome.exited 1 := by
  rcases List.append_eq_nil.mp h with ⟨h1, h2⟩
  subst h1; subst h2
  simp [mainBasePhase]

/-- Witness for C7: the empty configuration exits with status 1. -/
theorem empty_base_list_exits_witness :
    mainBasePhase none none [] [] = MainOutcome.exited 1 :=
  empty_base_list_exits none none [] [] rfl

/-- Claim C8, counterexample.  The claim says `normalizePath` fails with a
`HomeResolutionError` when the input has a home token and the home
directory cannot be determined.  In the source the `os.UserHomeDir` error
is discarded (`homeDir, _ := os.UserHomeDir()`), so on input `~/x` with no
determinable home the call succeeds (the token expands against the empty
string), returning `/x`. -/
theorem normalizePath_no_home_error_counterexample :
    normalizePath none (some "/cwd") "~/x" = some "/x" ∧
      normalizePath none (some "/cwd") "~/x" ≠ none := by
  exact ⟨by decide, by decide⟩

/-- Claim C8, amended.  `normalizePath` never fails on account of home
resolution — a home token with an undeterminable home directory is
expanded against the empty string — and it fails exactly when the
expanded path is relative and the working directory cannot be determined
(the `filepath.Abs` failure case). -/
theorem normalizePath_failure_iff (userHome cwd : Option String) (p : String) :
    normalizePath userHome cwd p = none ↔
      cwd = none ∧ strStartsWith (expandHome userHome p) "/" = false := by
  by_cases h : strStartsWith (expandHome userHome p) "/" = true
  · simp [normalizePath, h]
  · cases cwd with
    | none => simp [normalizePath, h]
    | some wd => simp [normalizePath, h]

/-! ## Walk-error claims -/

/-- Claim C9, counterexample.  The claim says a per-base walk error "is
reported".  Here the first base's walk fails (failure flag `true`), yet
`findProjectDirectories` returns a `nil` error — its only error channel —
so nothing is reported; the second base's project is still discovered. -/
theorem walk_error_not_reported_counterexample :
    (findProjectDirectories "/home/u"
        (fun b _ => if b = "/b1" then ([], true) else (["proj"], false))
        ⟨["/b1/x", "/b2/proj"]⟩).2 = none ∧
    ((fun (b : String) (_ : String) =>
        if b = "/b1" then (([] : List String), true) else (["proj"], false))
      "/b1" "x").2 = true ∧
    ∃ proj ∈ (findProjectDirectories "/home/u"
        (fun b _ => if b = "/b1" then ([], true) else (["proj"], false))
        ⟨["/b1/x", "/b2/proj"]⟩).1,
      proj.FullPath = "/b2/proj" := by
  refine ⟨rfl, rfl, ?_⟩
  decide

/-- Claim C9, amended.  A walk error while resolving one base pattern is
silently discarded — `findProjectDirectories` always returns a `nil`
error and its result does not depend on the walk failure flags at all —
and it does not abort resolution of the remaining base patterns: every
base pattern's successfully resolved matches appear in the final result
regardless of any failure flags. -/
theorem walk_errors_ignored (homedir : String)
    (walk : String → String → List String × Bool) (cfg : Config) :
    (findProjectDirectories homedir walk cfg).2 = none ∧
    findProjectDirectories homedir walk cfg =
      findProjectDirectories homedir (fun b q => ((walk b q).1, false)) cfg ∧
    (∀ bp ∈ cfg.ProjectBase,
      (∀ q ∈ (walk (splitPattern bp).1 (splitPattern bp).2).1,
        (matchProject (isGlobSegment (pathBase (splitPattern bp).2))
          (splitPattern bp).1 homedir q).isSome = true) →
      ∀ p ∈ (walk (splitPattern bp).1 (splitPattern bp).2).1,
        pathJoin (splitPattern bp).1
          (deriveName (isGlobSegment (pathBase (splitPattern bp).2))
            (splitPattern bp).1 p) ∈
          ((findProjectDirectories homedir walk cfg).1).map Project.FullPath) := by
  have hfun : processBasePattern homedir (fun b q => ((walk b q).1, false)) =
      processBasePattern homedir walk := by
    funext ret bp
    rfl
  refine ⟨rfl, ?_, ?_⟩
  · simp only [findProjectDirectories, hfun]
  · intro bp hbp hall p hp
    have hgood : goodMap (cfg.ProjectBase.foldl (processBasePattern homedir walk) []) :=
      foldl_good homedir walk cfg.ProjectBase [] ⟨List.nodup_nil, by simp⟩
    have hk := foldl_key_present homedir walk cfg.ProjectBase [] bp hbp hall p hp
    have hperm :
        (((findProjectDirectories homedir walk cfg).1).map Project.FullPath).Perm
          ((cfg.ProjectBase.foldl (processBasePattern homedir walk) []).map Prod.fst) := by
      simp only [findProjectDirectories]
      rw [← values_fullpaths _ hgood.2]
      exact (sortProjects_perm _).map Project.FullPath
    exact hperm.mem_iff.mpr hk

/-- Witness for C9 (amended): the same two-base configuration as the
counterexample; the failing first base does not keep the second base's
project out of the result. -/
theorem walk_errors_ignored_witness :
    pathJoin "/b2" (deriveName (isGlobSegment (pathBase "proj")) "/b2" "proj") ∈
      ((findProjectDirectories "/home/u"
          (fun b _ => if b = "/b1" then ([], true) else (["proj"], false))
          ⟨["/b1/x", "/b2/proj"]⟩).1).map Project.FullPath :=
  (walk_errors_ignored "/home/u"
      (fun b _ => if b = "/b1" then ([], true) else (["proj"], false))
      ⟨["/b1/x", "/b2/proj"]⟩).2.2
    "/b2/proj" (by decide) (by decide) "proj" (by decide)
